import Mathlib

/-!
Shallow embedding of the hll-go HyperLogLog library (package `hll`):
the sketch data model, register update (`addHash` / `Insert`), the estimator
(`rawHarmonicEstimate`, `linearCounting`, `Estimate`), `Merge`, `Rollup`,
protobuf (de)serialization at the message level, and the bias-generation
interpolation-point schedule (`calculateInterpolationPoints`).

Go machine integers are modelled as `ℕ` (with explicit `% 2^w` where a Go
conversion narrows); Go `float64` values that hold finite data are modelled
as `ℚ`, and `float64` arithmetic involving `math.Log` / `math.Pow` is
modelled as exact real arithmetic over `ℝ`.
-/

namespace HLL

/-! ## Constants (hll.go) -/

def hashLength : ℕ := 64

def precision : ℕ := 14

/-- Go: `remnant = hashLength - precision` (= 50). -/
def remnant : ℕ := hashLength - precision

/-- Go: `m = uint64(math.Pow(2, precision))` (= 16384). -/
def m : ℕ := 2 ^ precision

def maxLinearCounting : ℕ := 11500

def currentVersion : String := "1"

/-- Go: `bitMask = (1 << remnant) - 1`, i.e. 14 zero bits followed by 50 one bits. -/
def bitMask : ℕ := 2 ^ remnant - 1

/-! ## Bias tables (the `biases` struct and its data live in biases.go, absent from src/) -/

/-- Modelled from the spec: the `biases` struct of biases.go (absent from src/).
A BiasTable is a sorted list of calibration ticks, a mapping from tick to the
measured correction multiplier, and `maxTick`, the last (largest) tick.
Multiplier values are finite float64 data, modelled as `ℚ`. -/
structure Biases where
  ticks : List ℕ
  store : ℕ → ℚ
  maxTick : ℕ

/-- Modelled from the spec: `getNeighbourTicks` of biases.go (absent from src/).
It locates the 4-tick interpolation window around `x`: the 2 ticks immediately
at or below `x` and the 2 immediately above, clamped to the first 4 ticks when
`x` is at or below the first tick and to the last 4 when `x` is at or beyond
the last tick. -/
def getNeighbourTicks (b : Biases) (x : ℕ) : List ℕ :=
  match b.ticks.head?, b.ticks.getLast? with
  | some first, some last =>
    if x ≤ first then b.ticks.take 4
    else if last ≤ x then b.ticks.drop (b.ticks.length - 4)
    else
      let lower := b.ticks.filter (fun t => t ≤ x)
      let higher := b.ticks.filter (fun t => x < t)
      lower.drop (lower.length - 2) ++ higher.take 2
  | _, _ => []

/-- Modelled from the spec: `getInterpolatedBias` of biases.go (absent from src/).
The unweighted arithmetic mean of the stored multiplier over the 4 neighbour
ticks of `x`. -/
def getInterpolatedBias (b : Biases) (x : ℕ) : ℚ :=
  ((getNeighbourTicks b x).map b.store).sum / 4

/-- Modelled from the spec: the default bias table of biases.go (absent from src/).
Per the spec, the default table was generated with the default options
(`maxCardinality = 7 * m = 114688`), so its calibrated range — and hence
`maxTick` — lies well above the linear-counting threshold 11500.  The actual
tick/multiplier data is not in src/, so placeholder data is used; the theorems
below rely only on `maxTick` exceeding the linear-counting threshold. -/
def defaultBiases : Biases :=
  { ticks := [], store := fun _ => 1, maxTick := 7 * m }

/-! ## The sketch data model (hll.go) -/

/-- The `sketch` struct of hll.go: a bias-table reference, the fixed array of
16384 one-byte registers (modelled as `List ℕ` with values `< 256`), and the
format version tag. -/
structure SketchState where
  biasSet : Biases
  registers : List ℕ
  version : String

/-- Go: `createSketch()` — default biases, `m` zeroed registers, current version. -/
def createSketch : SketchState :=
  { biasSet := defaultBiases, registers := List.replicate m 0, version := currentVersion }

/-- Go: `bits.LeadingZeros(uint(x))` on a 64-bit platform: the number of
leading zero bits of `x` in a full 64-bit word. -/
def leadingZeros64 (x : ℕ) : ℕ := 64 - Nat.size x

/-- Go: `getRegisterAndLeadingZeros(hash)` of hll.go.  The register index is
`hash >> remnant` (the top 14 bits) and the second component is
`bits.LeadingZeros(uint(hash & bitMask)) - precision`.  `hash & bitMask` is
the low-50-bit remnant, written here as `hash % 2 ^ remnant`. -/
def getRegisterAndLeadingZeros (hash : ℕ) : ℕ × ℕ :=
  (hash / 2 ^ remnant, leadingZeros64 (hash % 2 ^ remnant) - precision)

/-- Go: `(*sketch).addHash(h)` of hll.go: `zeros` is the leading-zero count
plus 1, and `registers[register]` is raised to `zeros` when below it.
(Go indexes `s.registers[register]` directly; `register < m` always holds for
a 64-bit hash, and every constructed sketch has `m` registers.) -/
def addHash (s : SketchState) (h : ℕ) : SketchState :=
  let register := (getRegisterAndLeadingZeros h).1
  let zeros := (getRegisterAndLeadingZeros h).2 + 1
  if zeros ≤ s.registers.getD register 0 then s
  else { s with registers := s.registers.set register zeros }

/-! ## Estimation (hll.go) -/

/-- Go: `alpha = 1 / (2 * math.Log(2))`. -/
noncomputable def alpha : ℝ := 1 / (2 * Real.log 2)

/-- The loop body of `rawHarmonicEstimate`: registers equal to zero are
skipped; a non-zero register `n` contributes `2^(-n)` to the running `sum`
(first component) and 1 to `registersUsed` (second component). -/
noncomputable def harmonicStep (acc : ℝ × ℝ) (n : ℕ) : ℝ × ℝ :=
  if n = 0 then acc else (acc.1 + (2 : ℝ) ^ (-(n : ℤ)), acc.2 + 1)

/-- Go: `(*sketch).rawHarmonicEstimate()` of hll.go: fold the loop over the
registers; if no register was used the estimate is 0, otherwise it is
`uint64((alpha * registersUsed * registersUsed) / sum)`. -/
noncomputable def rawHarmonicEstimate (regs : List ℕ) : ℕ :=
  let p := regs.foldl harmonicStep (0, 0)
  if p.2 ≤ 0 then 0
  else ⌊alpha * p.2 * p.2 / p.1⌋₊

/-- Go: `(*sketch).linearCounting()` of hll.go: `registersUsed` counts the
registers still at zero, and the result is `uint64(mf * math.Log(mf / registersUsed))`.
(When no register is zero Go computes `mf/0.0 = +Inf`; the real-number model
gives `mf / 0 = 0`.  That scenario is proved unreachable below.) -/
noncomputable def linearCounting (regs : List ℕ) : ℕ :=
  let registersUsed : ℝ := regs.foldl (fun acc n => if n = 0 then acc + 1 else acc) 0
  ⌊(m : ℝ) * Real.log ((m : ℝ) / registersUsed)⌋₊

/-- Go: `(*sketch).Estimate()` of hll.go: raw harmonic estimate, then the
three-way branch — raw above `maxTick`, linear counting below 11500,
interpolated bias otherwise. -/
noncomputable def Estimate (s : SketchState) : ℕ :=
  let rawEstimate := rawHarmonicEstimate s.registers
  if rawEstimate > s.biasSet.maxTick then rawEstimate
  else if rawEstimate < maxLinearCounting then linearCounting s.registers
  else ⌊getInterpolatedBias s.biasSet rawEstimate * (rawEstimate : ℚ)⌋₊

/-! ## Merge (hll.go) -/

/-- The two sentinel errors of hll.go: `ErrorMismatchedVersion` and
`ErrorMalformedPrecision`. -/
inductive MergeError
  | mismatchedVersion
  | malformedPrecision
deriving DecidableEq

/-- Go: `(*sketch).Merge(other)` of hll.go: error on a version mismatch, then
error on a register-length mismatch, and only then raise each of the
receiver's registers to the other sketch's value where that is larger
(per-index maximum).  Both checks precede any register write. -/
def Merge (s other : SketchState) : Except MergeError SketchState :=
  if s.version ≠ other.version then .error .mismatchedVersion
  else if s.registers.length ≠ other.registers.length then .error .malformedPrecision
  else .ok { s with registers := List.zipWith max s.registers other.registers }

/-! ## Rollup (utils.go) -/

inductive RollupError
  | emptyList
  | versionMismatch
  | precisionMismatch
deriving DecidableEq

/-- The validation loop of `Rollup` (utils.go): walk the sketches after the
first and fail on the first one whose version, then whose register length,
differs from the first sketch's. -/
def rollupValidate (first : SketchState) : List SketchState → Option RollupError
  | [] => none
  | sk :: rest =>
    if sk.version ≠ first.version then some .versionMismatch
    else if sk.registers.length ≠ first.registers.length then some .precisionMismatch
    else rollupValidate first rest

/-- Go: `Rollup(sketches)` of utils.go: reject an empty list, validate a
common version and register length, then build a fresh sketch (default
biases, the first sketch's version) whose register `i` is the maximum of
register `i` over all inputs, starting from 0, for each `i < m`.
(Go reads `reg[i]` for `i` up to `m`; every constructed sketch has exactly
`m` registers, which the theorems below assume.) -/
def Rollup (sketches : List SketchState) : Except RollupError SketchState :=
  match sketches with
  | [] => .error .emptyList
  | first :: rest =>
    match rollupValidate first rest with
    | some e => .error e
    | none =>
      .ok { biasSet := defaultBiases, version := first.version,
            registers := (List.range m).map
              (fun i => (first :: rest).foldl (fun mx sk => max mx (sk.registers.getD i 0)) 0) }

/-! ## Protobuf serialization boundary (hll.go)

The wire codec (`proto.Marshal` / `proto.Unmarshal` over the hll-protobuf
schema) is an external dependency; it is modelled at the message level: a
`ProtoSketch` is the decoded message, `none` stands for a nil payload, and
the empty payload decodes to the all-default message `⟨"", []⟩`. -/

/-- The hll-protobuf `Sketch` message: a version string and the registers
widened to uint32. -/
structure ProtoSketch where
  version : String
  registers : List ℕ
deriving DecidableEq

/-- Go: `(*sketch).ProtoSerialize()` of hll.go: each uint8 register is
widened to uint32 and marshalled together with the version. -/
def ProtoSerialize (s : SketchState) : ProtoSketch :=
  { version := s.version, registers := s.registers.map (fun r => r % 2 ^ 32) }

/-- Outcome of `ProtoDeserialize`: an error value, a run-time panic
(out-of-range slice index), or a sketch. -/
inductive DeserializeResult
  | failure
  | indexOutOfRange
  | ok (s : SketchState)

/-- Go: `ProtoDeserialize(protoBs)` of hll.go: a nil payload is an error;
otherwise the decoded registers are copied one by one (narrowed to uint8)
into a fresh `createSketch()` whose version is overwritten by the decoded
one.  A decoded register list longer than `m` makes `s.registers[i]` panic;
a shorter one leaves the trailing registers at zero.  No length validation
is performed. -/
def ProtoDeserialize : Option ProtoSketch → DeserializeResult
  | none => .failure
  | some pb =>
    if m < pb.registers.length then .indexOutOfRange
    else .ok { biasSet := defaultBiases, version := pb.version,
               registers := pb.registers.map (fun r => r % 256)
                 ++ List.replicate (m - pb.registers.length) 0 }

/-! ## Bias generation (biases_gen.go source, part_001) -/

/-- The `GenerationOptions` struct: `MaxCardinality` is uint64, `Repeats`,
`InitialStep` are int, `StepRate` is a float64 (modelled as `ℚ`). -/
structure GenerationOptions where
  maxCardinality : ℕ
  repeats : ℤ
  initialStep : ℤ
  stepRate : ℚ

/-- Go: `DefaultGenerationOptions()`. -/
def DefaultGenerationOptions : GenerationOptions :=
  { maxCardinality := m * 7, repeats := 5000, initialStep := 50, stepRate := 5 / 4 }

/-- The fail-fast validation at the top of `GenerateBiases`: `fn` non-nil,
`MaxCardinality > m`, `Repeats > 0`, `InitialStep > 0`, `StepRate > 0`. -/
def validGenerationOptions (fnNonNil : Bool) (o : GenerationOptions) : Bool :=
  fnNonNil && decide (m < o.maxCardinality) && decide (0 < o.repeats)
    && decide (0 < o.initialStep) && decide (0 < o.stepRate)

/-- State of the `calculateInterpolationPoints` loop: the index `i`, the
current `step`, the `nextStepChange` boundary, and the `ticks` collected. -/
structure InterpState where
  i : ℕ
  step : ℕ
  nextStepChange : ℕ
  ticks : List ℕ
deriving DecidableEq

/-- One iteration of the `calculateInterpolationPoints` loop body: when `i`
has passed `nextStepChange`, advance the boundary by `rangeLength` and set
`step` to `uint64(float64(step) * stepRate)` (truncation of the product);
then record `i` as a tick and advance `i` by the (possibly updated) step. -/
def interpIter (rangeLength : ℕ) (stepRate : ℚ) (st : InterpState) : InterpState :=
  let st' :=
    if st.nextStepChange < st.i then
      { st with nextStepChange := st.nextStepChange + rangeLength,
                step := ⌊(st.step : ℚ) * stepRate⌋₊ }
    else st
  { st' with ticks := st'.ticks ++ [st'.i], i := st'.i + st'.step }

/-- The `for i := 0; i < maxCardinality; i += step` loop of
`calculateInterpolationPoints`, run on explicit fuel: `none` means the fuel
ran out before the loop exited. -/
def interpLoop (maxCardinality rangeLength : ℕ) (stepRate : ℚ) :
    ℕ → InterpState → Option (List ℕ)
  | 0, _ => none
  | fuel + 1, st =>
    if st.i < maxCardinality then
      interpLoop maxCardinality rangeLength stepRate fuel (interpIter rangeLength stepRate st)
    else some st.ticks

/-- Go: `calculateInterpolationPoints(maxCardinality, initialStep, stepRate)`
of the bias-generation source: `rangeLength = maxCardinality / 10`, the loop
above starting from `i = 0`, `step = uint64(initialStep)`,
`nextStepChange = rangeLength`, and finally `ticks[1:]` (drop the point 0).
`some` carries the returned slice; `none` means the loop never exits. -/
def calculateInterpolationPoints (fuel : ℕ) (maxCardinality : ℕ) (initialStep : ℤ)
    (stepRate : ℚ) : Option (List ℕ) :=
  (interpLoop maxCardinality (maxCardinality / 10) stepRate fuel
      { i := 0, step := initialStep.toNat, nextStepChange := maxCardinality / 10, ticks := [] }).map
    (fun ticks => ticks.drop 1)

/-- Divergence of `calculateInterpolationPoints` at a given input: no amount
of fuel makes the loop exit. -/
def interpolationPointsDiverge (maxCardinality : ℕ) (initialStep : ℤ) (stepRate : ℚ) : Prop :=
  ∀ fuel, calculateInterpolationPoints fuel maxCardinality initialStep stepRate = none

/-- Well-formedness invariant of every sketch the library constructs:
exactly `m` registers, each one a byte. -/
def WellFormed (s : SketchState) : Prop :=
  s.registers.length = m ∧ ∀ r ∈ s.registers, r < 256

/-! ## Spec-side estimator definitions

These follow the specification's words (spec §4.2) and are compared with the
loop-based definitions taken from the source. -/

/-- Spec §4.2: `registersUsed` — the count of non-zero registers. -/
def usedCount : List ℕ → ℕ
  | [] => 0
  | n :: rest => (if n = 0 then 0 else 1) + usedCount rest

/-- Spec §4.2: `sum` — Σ 2^(−registers[i]), taken over the non-zero registers. -/
noncomputable def recipSum : List ℕ → ℝ
  | [] => 0
  | n :: rest => (if n = 0 then 0 else (2 : ℝ) ^ (-(n : ℤ))) + recipSum rest

/-- Spec §4.2 step 1: the raw estimate is 0 when no register is used, and
`floor(alpha * registersUsed^2 / sum)` otherwise. -/
noncomputable def specRawEstimate (regs : List ℕ) : ℕ :=
  if usedCount regs = 0 then 0
  else ⌊alpha * (usedCount regs : ℝ) ^ 2 / recipSum regs⌋₊

/-- Spec §4.2 step 2: the three-way branch, written from the spec's words,
with `numZeroRegisters` the count of registers still at zero. -/
noncomputable def specEstimate (s : SketchState) : ℕ :=
  let raw := specRawEstimate s.registers
  if s.biasSet.maxTick < raw then raw
  else if raw < 11500 then
    ⌊(m : ℝ) * Real.log ((m : ℝ) / (s.registers.count 0 : ℝ))⌋₊
  else ⌊getInterpolatedBias s.biasSet raw * (raw : ℚ)⌋₊

/-! ## Concrete values used by witnesses and counterexamples -/

/-- Spec §4.1: the leading-zero count of a value counted within exactly a
50-bit window (the value is the low-50-bit remnant, so it is below `2^50`). -/
def leadingZeros50 (x : ℕ) : ℕ := 50 - Nat.size x

/-- The net effect of `addHash` on the register array: raise slot `i` to the
maximum of its current value and `v` (a no-op beyond the array length). -/
def updMax (l : List ℕ) (i v : ℕ) : List ℕ := l.set i (max (l.getD i 0) v)

def testBiases : Biases := { ticks := [0], store := fun _ => 0, maxTick := 0 }

def sketchA : SketchState := { biasSet := testBiases, registers := [1, 3], version := "1" }

def sketchB : SketchState := { biasSet := testBiases, registers := [2, 2], version := "1" }

def sketchC : SketchState := { biasSet := testBiases, registers := [0, 5], version := "1" }

def sketchV : SketchState := { biasSet := testBiases, registers := [1, 3], version := "2" }

def sketchL : SketchState := { biasSet := testBiases, registers := [1], version := "1" }

/-- A registrable custom bias table (spec §6 requires only a non-empty
mapping): a single tick 0, so its `maxTick` is 0. -/
def lowBiases : Biases := { ticks := [0], store := fun _ => 0, maxTick := 0 }

/-- A reachable register state: one register at 4 (one inserted element whose
remnant has three leading zeros), the rest untouched. -/
def fourRegisters : List ℕ := 4 :: List.replicate (m - 1) 0

/-- A sketch carrying the custom table `lowBiases` (as built by
`NewCustomSketch` after `RegisterBiases`) with one element inserted. -/
def customSketch : SketchState :=
  { biasSet := lowBiases, registers := fourRegisters, version := "1" }

/-- What the round trip returns for `customSketch`: same version and
registers, but the default bias table. -/
def roundtripOfCustom : SketchState :=
  { biasSet := defaultBiases, registers := fourRegisters, version := "1" }

/-- An options value that passes every validation check of `GenerateBiases`
(`MaxCardinality = 16385 > m`, `Repeats = 1 > 0`, `InitialStep = 1 > 0`,
`StepRate = 0.5 > 0`). -/
def badOptions : GenerationOptions :=
  { maxCardinality := 16385, repeats := 1, initialStep := 1, stepRate := 1 / 2 }

/-! ## Fold characterizations of the estimator loops -/

theorem foldl_harmonicStep (regs : List ℕ) (a b : ℝ) :
    regs.foldl harmonicStep (a, b) = (a + recipSum regs, b + (usedCount regs : ℝ)) := by
  induction regs generalizing a b with
  | nil => simp [recipSum, usedCount]
  | cons n rest ih =>
    by_cases hn : n = 0
    · simp [harmonicStep, hn, recipSum, usedCount, ih]
    · simp only [List.foldl_cons, harmonicStep, hn, if_false, ih, recipSum, usedCount]
      refine Prod.ext ?_ ?_
      · simp only
        ring
      · simp only
        push_cast
        ring

theorem foldl_zeroCount (regs : List ℕ) (c : ℝ) :
    regs.foldl (fun acc n => if n = 0 then acc + 1 else acc) c
      = c + (regs.count 0 : ℝ) := by
  induction regs generalizing c with
  | nil => simp
  | cons n rest ih =>
    by_cases hn : n = 0
    · subst hn
      simp only [List.foldl_cons, if_pos rfl, ih, List.count_cons_self]
      push_cast
      ring
    · simp only [List.foldl_cons, if_neg hn, ih]
      rw [List.count_cons_of_ne (by omega)]

theorem rawHarmonicEstimate_eq (regs : List ℕ) :
    rawHarmonicEstimate regs
      = if usedCount regs = 0 then 0
        else ⌊alpha * (usedCount regs : ℝ) * (usedCount regs : ℝ) / recipSum regs⌋₊ := by
  unfold rawHarmonicEstimate
  rw [foldl_harmonicStep]
  simp only [zero_add]
  by_cases h : usedCount regs = 0
  · simp [h]
  · rw [if_neg (by simpa using h), if_neg h]

theorem linearCounting_eq (regs : List ℕ) :
    linearCounting regs = ⌊(m : ℝ) * Real.log ((m : ℝ) / (regs.count 0 : ℝ))⌋₊ := by
  unfold linearCounting
  rw [foldl_zeroCount]
  simp

/-! ## Basic facts about the spec-side quantities -/

theorem usedCount_replicate_zero (n : ℕ) : usedCount (List.replicate n 0) = 0 := by
  induction n with
  | zero => rfl
  | succ k ih => simpa [List.replicate_succ, usedCount] using ih

theorem rawHarmonicEstimate_replicate_zero (n : ℕ) :
    rawHarmonicEstimate (List.replicate n 0) = 0 := by
  rw [rawHarmonicEstimate_eq, if_pos (usedCount_replicate_zero n)]

theorem usedCount_eq_length (regs : List ℕ) (h : ∀ r ∈ regs, r ≠ 0) :
    usedCount regs = regs.length := by
  induction regs with
  | nil => rfl
  | cons n rest ih =>
    have hn : n ≠ 0 := h n (by simp)
    simp only [usedCount, if_neg hn, List.length_cons]
    rw [ih (fun r hr => h r (by simp [hr]))]
    omega

theorem recipSum_nonneg (regs : List ℕ) : 0 ≤ recipSum regs := by
  induction regs with
  | nil => simp [recipSum]
  | cons n rest ih =>
    have hif : (0 : ℝ) ≤ if n = 0 then 0 else (2 : ℝ) ^ (-(n : ℤ)) := by
      split
      · exact le_refl 0
      · positivity
    simpa [recipSum] using add_nonneg hif ih

theorem recipSum_pos (regs : List ℕ) (hne : regs ≠ []) (h : ∀ r ∈ regs, r ≠ 0) :
    0 < recipSum regs := by
  cases regs with
  | nil => exact absurd rfl hne
  | cons n rest =>
    have hn : n ≠ 0 := h n (by simp)
    have h1 : (0 : ℝ) < (2 : ℝ) ^ (-(n : ℤ)) := by positivity
    have h2 : (0 : ℝ) ≤ recipSum rest := recipSum_nonneg rest
    simp only [recipSum, if_neg hn]
    linarith

theorem recipSum_le_half_length (regs : List ℕ) (h : ∀ r ∈ regs, r ≠ 0) :
    recipSum regs ≤ (regs.length : ℝ) * (1 / 2) := by
  induction regs with
  | nil => simp [recipSum]
  | cons n rest ih =>
    have hn : n ≠ 0 := h n (by simp)
    have hterm : (2 : ℝ) ^ (-(n : ℤ)) ≤ 1 / 2 := by
      have h1 : (-(n : ℤ)) ≤ -1 := by omega
      calc (2 : ℝ) ^ (-(n : ℤ)) ≤ (2 : ℝ) ^ (-1 : ℤ) :=
            zpow_le_zpow_right₀ one_le_two h1
        _ = 1 / 2 := by norm_num
    have hrest := ih (fun r hr => h r (by simp [hr]))
    simp only [recipSum, if_neg hn, List.length_cons]
    push_cast
    linarith

theorem log_two_lt_one : Real.log 2 < 1 := by
  have := Real.log_two_lt_d9
  linarith

theorem log_two_pos : 0 < Real.log 2 := Real.log_pos (by norm_num)

/-- When every one of the `m` registers is non-zero, the raw harmonic
estimate is at least `2 * alpha * m = m / ln 2 > m > 11500`, so it can never
fall below the linear-counting threshold. -/
theorem raw_ge_of_no_zero (regs : List ℕ) (hlen : regs.length = m) (h0 : 0 ∉ regs) :
    maxLinearCounting ≤ rawHarmonicEstimate regs := by
  have hne : ∀ r ∈ regs, r ≠ 0 := by
    intro r hr hr0
    exact h0 (hr0 ▸ hr)
  have hm : m = 16384 := by norm_num [m, precision]
  have hU : usedCount regs = 16384 := by
    rw [usedCount_eq_length regs hne, hlen, hm]
  have hnil : regs ≠ [] := by
    intro hcon
    rw [hcon] at hlen
    simp [hm] at hlen
  have hS_pos : 0 < recipSum regs := recipSum_pos regs hnil hne
  have hS_le : recipSum regs ≤ 8192 := by
    have hb := recipSum_le_half_length regs hne
    rw [hlen, hm] at hb
    norm_num at hb
    exact hb
  have halpha_pos : 0 < alpha := by
    unfold alpha
    positivity
  have h1 : alpha * (16384 : ℝ) * 16384 / 8192 ≤ alpha * 16384 * 16384 / recipSum regs := by
    gcongr
  have h2 : alpha * (16384 : ℝ) * 16384 / 8192 = 16384 / Real.log 2 := by
    unfold alpha
    have hlog : Real.log 2 ≠ 0 := ne_of_gt log_two_pos
    field_simp
    ring
  have h3 : (16384 : ℝ) ≤ 16384 / Real.log 2 := by
    rw [le_div_iff₀ log_two_pos]
    nlinarith [log_two_lt_one, log_two_pos]
  have hkey : (11500 : ℝ) ≤ alpha * 16384 * 16384 / recipSum regs := by linarith
  rw [rawHarmonicEstimate_eq, if_neg (by omega)]
  have : maxLinearCounting = 11500 := by norm_num [maxLinearCounting]
  rw [this, hU]
  exact Nat.le_floor (by push_cast; linarith)

/-- C1.  Whenever `Estimate` takes the linear-counting branch — the raw
estimate is not above `biasSet.maxTick` and is strictly below the
11500 threshold — at least one register is zero, so the divisor
`numZeroRegisters` of `linearCounting` is never zero there (the source has
no special case for `numZeroRegisters == 0`, and none is reachable). -/
theorem estimate_linear_branch_has_zero_register (s : SketchState)
    (hlen : s.registers.length = m)
    (hbig : ¬ rawHarmonicEstimate s.registers > s.biasSet.maxTick)
    (hsmall : rawHarmonicEstimate s.registers < maxLinearCounting) :
    0 ∈ s.registers := by
  by_contra h0
  have hge := raw_ge_of_no_zero s.registers hlen h0
  omega

/-- Witness for C1 at the freshly created sketch: its raw estimate is 0, so
the linear-counting branch conditions hold and a zero register exists. -/
theorem estimate_linear_branch_has_zero_register_witness :
    createSketch.registers.length = m ∧
      ¬ rawHarmonicEstimate createSketch.registers > createSketch.biasSet.maxTick ∧
      rawHarmonicEstimate createSketch.registers < maxLinearCounting ∧
      0 ∈ createSketch.registers := by
  have hlen : createSketch.registers.length = m := by
    simp [createSketch]
  have hraw : rawHarmonicEstimate createSketch.registers = 0 :=
    rawHarmonicEstimate_replicate_zero m
  have hbig : ¬ rawHarmonicEstimate createSketch.registers > createSketch.biasSet.maxTick := by
    rw [hraw]
    omega
  have hsmall : rawHarmonicEstimate createSketch.registers < maxLinearCounting := by
    rw [hraw]
    norm_num [maxLinearCounting]
  exact ⟨hlen, hbig, hsmall,
    estimate_linear_branch_has_zero_register createSketch hlen hbig hsmall⟩

theorem rawHarmonicEstimate_eq_spec (regs : List ℕ) :
    rawHarmonicEstimate regs = specRawEstimate regs := by
  rw [rawHarmonicEstimate_eq]
  unfold specRawEstimate
  by_cases h : usedCount regs = 0
  · simp [h]
  · rw [if_neg h, if_neg h]
    congr 1
    ring

/-- C4.  `Estimate` selects its result exactly as the spec orders it: raw
harmonic estimate (0 on an untouched sketch), returned unmodified above
`biasSet.maxTick`, linear counting below 11500, interpolated bias otherwise;
and on the all-zero sketch the result is 0. -/
theorem Estimate_branch_order :
    (∀ s : SketchState, Estimate s = specEstimate s) ∧ Estimate createSketch = 0 := by
  have hmain : ∀ s : SketchState, Estimate s = specEstimate s := by
    intro s
    unfold Estimate specEstimate
    rw [rawHarmonicEstimate_eq_spec, linearCounting_eq]
    have hmlc : maxLinearCounting = 11500 := by norm_num [maxLinearCounting]
    rw [hmlc]
  refine ⟨hmain, ?_⟩
  have h1 : rawHarmonicEstimate createSketch.registers = 0 :=
    rawHarmonicEstimate_replicate_zero m
  unfold Estimate
  rw [h1, if_neg (by omega), if_pos (by norm_num [maxLinearCounting]), linearCounting_eq]
  have hcount : (createSketch.registers.count 0 : ℝ) = (m : ℝ) := by
    simp [createSketch]
  rw [hcount, div_self (by norm_num [m, precision]), Real.log_one, mul_zero, Nat.floor_zero]

/-! ## Register update (C3) -/

theorem getD_set_self (l : List ℕ) (i v : ℕ) (h : i < l.length) :
    (l.set i v).getD i 0 = v := by
  simp [List.getD_eq_getElem?_getD, List.getElem?_set_self', List.getElem?_eq_getElem h]

theorem getD_set_ne (l : List ℕ) (i j v : ℕ) (h : j ≠ i) :
    (l.set i v).getD j 0 = l.getD j 0 := by
  simp [List.getD_eq_getElem?_getD, List.getElem?_set_ne (Ne.symm h)]


/-- C3.  For every 64-bit hash `h`: the register index is the top 14 bits
`h >> 50` and lies in `[0, m)`; the recorded value `z` is the leading-zero
count of the low 50 bits of `h` within exactly a 50-bit window, plus 1; and
`addHash` raises `registers[index]` to `max(registers[index], z)` while
touching no other register. -/
theorem insert_register_update (s : SketchState) (h : ℕ)
    (hh : h < 2 ^ 64) (hlen : s.registers.length = m) :
    (getRegisterAndLeadingZeros h).1 = h / 2 ^ 50 ∧
    (getRegisterAndLeadingZeros h).1 < m ∧
    (getRegisterAndLeadingZeros h).2 + 1 = leadingZeros50 (h % 2 ^ 50) + 1 ∧
    (addHash s h).registers.getD (getRegisterAndLeadingZeros h).1 0
      = max (s.registers.getD (getRegisterAndLeadingZeros h).1 0)
          (leadingZeros50 (h % 2 ^ 50) + 1) ∧
    ∀ j, j ≠ (getRegisterAndLeadingZeros h).1 →
      (addHash s h).registers.getD j 0 = s.registers.getD j 0 := by
  have hrem : remnant = 50 := by norm_num [remnant, hashLength, precision]
  have hsize : Nat.size (h % 2 ^ 50) ≤ 50 :=
    Nat.size_le.mpr (Nat.mod_lt h (by norm_num))
  have hz : (getRegisterAndLeadingZeros h).2 = leadingZeros50 (h % 2 ^ 50) := by
    unfold getRegisterAndLeadingZeros leadingZeros64 leadingZeros50
    rw [hrem]
    simp only [precision]
    omega
  have hr1 : (getRegisterAndLeadingZeros h).1 = h / 2 ^ 50 := by
    unfold getRegisterAndLeadingZeros
    rw [hrem]
  have hrm : (getRegisterAndLeadingZeros h).1 < m := by
    rw [hr1]
    have : h / 2 ^ 50 < 2 ^ 14 := by
      rw [Nat.div_lt_iff_lt_mul (by norm_num)]
      calc h < 2 ^ 64 := hh
        _ = 2 ^ 14 * 2 ^ 50 := by norm_num
    simpa [m, precision] using this
  refine ⟨hr1, hrm, by rw [hz], ?_, ?_⟩
  · unfold addHash
    rw [hz]
    set r := (getRegisterAndLeadingZeros h).1 with hrdef
    set z := leadingZeros50 (h % 2 ^ 50) + 1 with hzdef
    by_cases hle : z ≤ s.registers.getD r 0
    · rw [if_pos hle]
      exact (max_eq_left hle).symm
    · rw [if_neg hle]
      simp only
      rw [getD_set_self s.registers r z (by omega)]
      exact (max_eq_right (by omega)).symm
  · intro j hj
    unfold addHash
    rw [hz]
    by_cases hle : leadingZeros50 (h % 2 ^ 50) + 1 ≤
        s.registers.getD (getRegisterAndLeadingZeros h).1 0
    · rw [if_pos hle]
    · rw [if_neg hle]
      simp only
      exact getD_set_ne s.registers _ j _ hj

/-- Witness for C3 at the hash 0 on a fresh sketch. -/
theorem insert_register_update_witness :
    (0 : ℕ) < 2 ^ 64 ∧ createSketch.registers.length = m ∧
      (addHash createSketch 0).registers.getD (getRegisterAndLeadingZeros 0).1 0
        = max (createSketch.registers.getD (getRegisterAndLeadingZeros 0).1 0)
            (leadingZeros50 (0 % 2 ^ 50) + 1) := by
  have hh : (0 : ℕ) < 2 ^ 64 := by norm_num
  have hlen : createSketch.registers.length = m := by simp [createSketch]
  exact ⟨hh, hlen, (insert_register_update createSketch 0 hh hlen).2.2.2.1⟩

/-! ## Algebra of the register update (C10) -/

theorem set_getD_self (l : List ℕ) (i : ℕ) : l.set i (l.getD i 0) = l := by
  by_cases h : i < l.length
  · rw [List.getD_eq_getElem l 0 h]
    apply List.ext_getElem
    · simp
    · intro n h1 h2
      rw [List.getElem_set]
      split
      · subst ‹i = n›
        rfl
      · rfl
  · exact List.set_eq_of_length_le (by omega)


theorem addHash_biasSet (s : SketchState) (h : ℕ) : (addHash s h).biasSet = s.biasSet := by
  unfold addHash
  simp only
  split <;> rfl

theorem addHash_version (s : SketchState) (h : ℕ) : (addHash s h).version = s.version := by
  unfold addHash
  simp only
  split <;> rfl

theorem addHash_registers (s : SketchState) (h : ℕ) :
    (addHash s h).registers
      = updMax s.registers (getRegisterAndLeadingZeros h).1
          ((getRegisterAndLeadingZeros h).2 + 1) := by
  unfold addHash updMax
  set r := (getRegisterAndLeadingZeros h).1
  set z := (getRegisterAndLeadingZeros h).2 + 1
  by_cases hle : z ≤ s.registers.getD r 0
  · rw [if_pos hle]
    rw [max_eq_left hle, set_getD_self]
  · rw [if_neg hle]
    rw [max_eq_right (by omega)]

theorem updMax_oob (l : List ℕ) (i v : ℕ) (h : ¬ i < l.length) : updMax l i v = l := by
  unfold updMax
  exact List.set_eq_of_length_le (by omega)

theorem length_updMax (l : List ℕ) (i v : ℕ) : (updMax l i v).length = l.length := by
  unfold updMax
  exact List.length_set l i _

theorem updMax_updMax_self (l : List ℕ) (i v w : ℕ) :
    updMax (updMax l i v) i w = updMax l i (max v w) := by
  by_cases hi : i < l.length
  · unfold updMax
    rw [getD_set_self l i _ hi, List.set_set]
    congr 1
    omega
  · rw [updMax_oob l i v hi, updMax_oob l i w hi, updMax_oob l i (max v w) hi]

theorem updMax_comm (l : List ℕ) (i j v w : ℕ) :
    updMax (updMax l i v) j w = updMax (updMax l j w) i v := by
  by_cases hij : i = j
  · subst hij
    rw [updMax_updMax_self, updMax_updMax_self, max_comm v w]
  · by_cases hi : i < l.length
    · by_cases hj : j < l.length
      · unfold updMax
        rw [getD_set_ne l i j _ (Ne.symm hij), getD_set_ne l j i _ hij]
        exact List.set_comm _ _ l hij
      · rw [updMax_oob _ j w (by rw [length_updMax]; exact hj), updMax_oob l j w hj]
    · rw [updMax_oob l i v hi, updMax_oob _ i v (by rw [length_updMax]; exact hi)]

theorem sketch_ext (a b : SketchState) (h1 : a.biasSet = b.biasSet)
    (h2 : a.registers = b.registers) (h3 : a.version = b.version) : a = b := by
  cases a
  cases b
  simp_all

theorem addHash_comm (s : SketchState) (h1 h2 : ℕ) :
    addHash (addHash s h1) h2 = addHash (addHash s h2) h1 := by
  apply sketch_ext
  · rw [addHash_biasSet, addHash_biasSet, addHash_biasSet, addHash_biasSet]
  · rw [addHash_registers (addHash s h1) h2, addHash_registers s h1,
      addHash_registers (addHash s h2) h1, addHash_registers s h2]
    exact updMax_comm s.registers _ _ _ _
  · rw [addHash_version, addHash_version, addHash_version, addHash_version]

theorem addHash_mono (s : SketchState) (h i : ℕ) :
    s.registers.getD i 0 ≤ (addHash s h).registers.getD i 0 := by
  rw [addHash_registers]
  unfold updMax
  by_cases hir : i = (getRegisterAndLeadingZeros h).1
  · rw [← hir]
    by_cases hr : i < s.registers.length
    · rw [getD_set_self _ _ _ hr]
      exact le_max_left _ _
    · rw [List.set_eq_of_length_le (by omega)]
  · rw [getD_set_ne _ _ _ _ hir]

theorem addHash_idem (s : SketchState) (h : ℕ) :
    addHash (addHash s h) h = addHash s h := by
  apply sketch_ext
  · rw [addHash_biasSet, addHash_biasSet]
  · rw [addHash_registers (addHash s h) h, addHash_registers s h, updMax_updMax_self, max_self]
  · rw [addHash_version, addHash_version]

/-- C10.  `addHash` (the register update of `Insert`) never decreases any
register; re-adding the same hash changes neither the registers nor the
`Estimate` output; and the final state of a fold over a sequence of hashes
is invariant under permutation of the sequence. -/
theorem insert_monotone_idempotent_order_independent :
    (∀ (s : SketchState) (h i : ℕ),
        s.registers.getD i 0 ≤ (addHash s h).registers.getD i 0) ∧
    (∀ (s : SketchState) (h : ℕ),
        addHash (addHash s h) h = addHash s h ∧
        Estimate (addHash (addHash s h) h) = Estimate (addHash s h)) ∧
    (∀ (s : SketchState) (l1 l2 : List ℕ), l1.Perm l2 →
        List.foldl addHash s l1 = List.foldl addHash s l2) := by
  refine ⟨addHash_mono, fun s h => ⟨addHash_idem s h, congrArg Estimate (addHash_idem s h)⟩, ?_⟩
  intro s l1 l2 hperm
  exact hperm.foldl_eq' (fun x _ y _ z => addHash_comm z x y) s

/-- Witness for C10: monotonicity, idempotence, and a concrete transposition
of two inserted hashes at the fresh sketch. -/
theorem insert_monotone_idempotent_order_independent_witness :
    createSketch.registers.getD 0 0 ≤ (addHash createSketch 5).registers.getD 0 0 ∧
      addHash (addHash createSketch 5) 5 = addHash createSketch 5 ∧
      ([5, 9] : List ℕ).Perm [9, 5] ∧
      List.foldl addHash createSketch [5, 9] = List.foldl addHash createSketch [9, 5] := by
  have hperm : ([5, 9] : List ℕ).Perm [9, 5] := by decide
  exact ⟨insert_monotone_idempotent_order_independent.1 createSketch 5 0,
    (insert_monotone_idempotent_order_independent.2.1 createSketch 5).1,
    hperm,
    insert_monotone_idempotent_order_independent.2.2 createSketch [5, 9] [9, 5] hperm⟩

/-! ## Merge (C5, C9) -/

theorem Merge_ok (a b : SketchState) (hv : a.version = b.version)
    (hl : a.registers.length = b.registers.length) :
    Merge a b = .ok { a with registers := List.zipWith max a.registers b.registers } := by
  unfold Merge
  rw [if_neg (by simp [hv]), if_neg (by simp [hl])]

theorem getD_zipWith_max (l1 l2 : List ℕ) (hlen : l1.length = l2.length) (i : ℕ) :
    (List.zipWith max l1 l2).getD i 0 = max (l1.getD i 0) (l2.getD i 0) := by
  induction l1 generalizing l2 i with
  | nil =>
    cases l2 with
    | nil => simp
    | cons y ys => simp at hlen
  | cons x xs ih =>
    cases l2 with
    | nil => simp at hlen
    | cons y ys =>
      cases i with
      | zero => simp
      | succ n =>
        simp only [List.zipWith_cons_cons, List.getD_cons_succ]
        exact ih ys (by simpa using hlen) n

/-- C5.  `Merge` fails with the version-mismatch error when the versions
differ, fails with the malformed-precision error when the versions match but
the register lengths differ (no state is produced in either failure, and the
source performs both checks before any register write), and otherwise
returns the receiver with each register raised to the per-index maximum. -/
theorem merge_validates_then_maxes (a b : SketchState) :
    (a.version ≠ b.version → Merge a b = .error .mismatchedVersion) ∧
    (a.version = b.version → a.registers.length ≠ b.registers.length →
      Merge a b = .error .malformedPrecision) ∧
    (a.version = b.version → a.registers.length = b.registers.length →
      Merge a b = .ok { a with registers := List.zipWith max a.registers b.registers } ∧
      ∀ i, (List.zipWith max a.registers b.registers).getD i 0
          = max (a.registers.getD i 0) (b.registers.getD i 0)) := by
  refine ⟨?_, ?_, ?_⟩
  · intro hv
    unfold Merge
    rw [if_pos hv]
  · intro hv hl
    unfold Merge
    rw [if_neg (by simp [hv]), if_pos hl]
  · intro hv hl
    exact ⟨Merge_ok a b hv hl, getD_zipWith_max a.registers b.registers hl⟩


/-- Witness for C5: a version mismatch, a length mismatch, and a successful
merge, each at concrete sketches. -/
theorem merge_validates_then_maxes_witness :
    (sketchA.version ≠ sketchV.version ∧ Merge sketchA sketchV = .error .mismatchedVersion) ∧
    (sketchA.version = sketchL.version ∧ sketchA.registers.length ≠ sketchL.registers.length ∧
      Merge sketchA sketchL = .error .malformedPrecision) ∧
    (sketchA.version = sketchB.version ∧ sketchA.registers.length = sketchB.registers.length ∧
      Merge sketchA sketchB
        = .ok { sketchA with registers := List.zipWith max sketchA.registers sketchB.registers }) := by
  have hv : sketchA.version ≠ sketchV.version := by decide
  have hl : sketchA.registers.length ≠ sketchL.registers.length := by decide
  exact ⟨⟨hv, (merge_validates_then_maxes sketchA sketchV).1 hv⟩,
    ⟨rfl, hl, (merge_validates_then_maxes sketchA sketchL).2.1 rfl hl⟩,
    ⟨rfl, rfl, ((merge_validates_then_maxes sketchA sketchB).2.2 rfl rfl).1⟩⟩

theorem zipWith_max_comm (l1 l2 : List ℕ) :
    List.zipWith max l1 l2 = List.zipWith max l2 l1 := by
  induction l1 generalizing l2 with
  | nil => cases l2 <;> simp
  | cons x xs ih =>
    cases l2 with
    | nil => simp
    | cons y ys => simp [max_comm, ih]

theorem zipWith_max_assoc (l1 l2 l3 : List ℕ) :
    List.zipWith max (List.zipWith max l1 l2) l3
      = List.zipWith max l1 (List.zipWith max l2 l3) := by
  induction l1 generalizing l2 l3 with
  | nil => simp
  | cons x xs ih =>
    cases l2 with
    | nil => simp
    | cons y ys =>
      cases l3 with
      | nil => simp
      | cons z zs => simp [max_assoc, ih]

/-- C9.  On compatible sketches (equal versions, equal register lengths),
`Merge` succeeds in either order with the same resulting registers, and the
two associations of a three-way merge also produce the same registers. -/
theorem merge_comm_assoc (a b c : SketchState)
    (hab : a.version = b.version) (hbc : b.version = c.version)
    (lab : a.registers.length = b.registers.length)
    (lbc : b.registers.length = c.registers.length) :
    (∃ ab ba, Merge a b = .ok ab ∧ Merge b a = .ok ba ∧ ab.registers = ba.registers) ∧
    (∃ ab abc bc abc2, Merge a b = .ok ab ∧ Merge ab c = .ok abc ∧
      Merge b c = .ok bc ∧ Merge a bc = .ok abc2 ∧ abc.registers = abc2.registers) := by
  constructor
  · exact ⟨_, _, Merge_ok a b hab lab, Merge_ok b a hab.symm lab.symm,
      zipWith_max_comm a.registers b.registers⟩
  · have h2v : ({ a with registers := List.zipWith max a.registers b.registers
        : SketchState }).version = c.version := hab.trans hbc
    have h2l : ({ a with registers := List.zipWith max a.registers b.registers
        : SketchState }).registers.length = c.registers.length := by
      simp only [List.length_zipWith]
      omega
    have h4v : a.version = ({ b with registers := List.zipWith max b.registers c.registers
        : SketchState }).version := hab
    have h4l : a.registers.length
        = ({ b with registers := List.zipWith max b.registers c.registers
            : SketchState }).registers.length := by
      simp only [List.length_zipWith]
      omega
    exact ⟨_, _, _, _, Merge_ok a b hab lab, Merge_ok _ c h2v h2l,
      Merge_ok b c hbc lbc, Merge_ok a _ h4v h4l,
      zipWith_max_assoc a.registers b.registers c.registers⟩

/-- Witness for C9 at three concrete compatible sketches. -/
theorem merge_comm_assoc_witness :
    sketchA.version = sketchB.version ∧ sketchB.version = sketchC.version ∧
      sketchA.registers.length = sketchB.registers.length ∧
      sketchB.registers.length = sketchC.registers.length ∧
      (∃ ab ba, Merge sketchA sketchB = .ok ab ∧ Merge sketchB sketchA = .ok ba ∧
        ab.registers = ba.registers) := by
  exact ⟨rfl, rfl, rfl, rfl, (merge_comm_assoc sketchA sketchB sketchC rfl rfl rfl rfl).1⟩

/-! ## Rollup (C6) -/

theorem rollupValidate_none (first : SketchState) (rest : List SketchState)
    (hv : ∀ sk ∈ rest, sk.version = first.version)
    (hl : ∀ sk ∈ rest, sk.registers.length = first.registers.length) :
    rollupValidate first rest = none := by
  induction rest with
  | nil => rfl
  | cons sk tail ih =>
    unfold rollupValidate
    rw [if_neg (by simp [hv sk (by simp)]), if_neg (by simp [hl sk (by simp)])]
    exact ih (fun x hx => hv x (by simp [hx])) (fun x hx => hl x (by simp [hx]))

theorem getD_range_map (f : ℕ → ℕ) (n i : ℕ) (h : i < n) :
    ((List.range n).map f).getD i 0 = f i := by
  rw [List.getD_eq_getElem _ 0 (by simpa using h)]
  simp

theorem ext_getD (l1 l2 : List ℕ) (hlen : l1.length = l2.length)
    (h : ∀ i, i < l1.length → l1.getD i 0 = l2.getD i 0) : l1 = l2 := by
  apply List.ext_getElem hlen
  intro i h1 h2
  have hi := h i h1
  rw [List.getD_eq_getElem l1 0 h1, List.getD_eq_getElem l2 0 h2] at hi
  exact hi

/-- C6.  `Rollup` over a non-empty list of sketches sharing one version and
the full register length `m` succeeds; the result carries the common input
version (whatever it is, not the library default) and, at every index below
`m`, the maximum of that register over all inputs.  For two compatible
sketches, its registers coincide with those of `Merge` (which mutates a copy
of its receiver). -/
theorem rollup_max_registers :
    (∀ (first : SketchState) (rest : List SketchState),
      (∀ sk ∈ first :: rest, sk.version = first.version) →
      (∀ sk ∈ first :: rest, sk.registers.length = m) →
      ∃ r, Rollup (first :: rest) = .ok r ∧ r.version = first.version ∧
        r.registers.length = m ∧
        ∀ i, i < m → r.registers.getD i 0
          = ((first :: rest).map (fun sk => sk.registers.getD i 0)).foldl max 0) ∧
    (∀ a b : SketchState, a.version = b.version →
      a.registers.length = m → b.registers.length = m →
      ∃ r ab, Rollup [a, b] = .ok r ∧ Merge a b = .ok ab ∧ r.registers = ab.registers) := by
  have hok : ∀ (first : SketchState) (rest : List SketchState),
      (∀ sk ∈ first :: rest, sk.version = first.version) →
      (∀ sk ∈ first :: rest, sk.registers.length = m) →
      Rollup (first :: rest)
        = .ok { biasSet := defaultBiases, version := first.version,
                registers := (List.range m).map
                  (fun i => (first :: rest).foldl
                    (fun mx sk => max mx (sk.registers.getD i 0)) 0) } := by
    intro first rest hv hl
    have hval : rollupValidate first rest = none :=
      rollupValidate_none first rest
        (fun sk hsk => hv sk (by simp [hsk]))
        (fun sk hsk => by rw [hl sk (by simp [hsk]), hl first (by simp)])
    simp only [Rollup, hval]
  constructor
  · intro first rest hv hl
    refine ⟨_, hok first rest hv hl, rfl, by simp, ?_⟩
    intro i hi
    rw [getD_range_map _ m i hi, List.foldl_map]
  · intro a b hv ha hb
    refine ⟨_, _, hok a [b] ?_ ?_, Merge_ok a b hv (ha.trans hb.symm), ?_⟩
    · intro sk hsk
      simp only [List.mem_cons, List.not_mem_nil, or_false] at hsk
      rcases hsk with rfl | rfl
      · rfl
      · exact hv.symm
    · intro sk hsk
      simp only [List.mem_cons, List.not_mem_nil, or_false] at hsk
      rcases hsk with rfl | rfl
      · exact ha
      · exact hb
    · simp only
      apply ext_getD
      · simp [List.length_zipWith, ha, hb]
      · intro i hi'
        have hi : i < m := by simpa using hi'
        rw [getD_range_map _ m i hi,
          getD_zipWith_max a.registers b.registers (ha.trans hb.symm) i]
        simp only [List.foldl_cons, List.foldl_nil]
        omega

/-- Witness for C6: a singleton rollup and a two-sketch rollup compared with
`Merge`, at fresh sketches. -/
theorem rollup_max_registers_witness :
    (∀ sk ∈ [createSketch], sk.version = createSketch.version) ∧
    (∀ sk ∈ [createSketch], sk.registers.length = m) ∧
    (∃ r, Rollup [createSketch] = .ok r ∧ r.version = createSketch.version ∧
      r.registers.length = m ∧
      ∀ i, i < m → r.registers.getD i 0
        = ([createSketch].map (fun sk => sk.registers.getD i 0)).foldl max 0) ∧
    (∃ r ab, Rollup [createSketch, createSketch] = .ok r ∧
      Merge createSketch createSketch = .ok ab ∧ r.registers = ab.registers) := by
  have hv : ∀ sk ∈ [createSketch], sk.version = createSketch.version := by
    intro sk hsk
    simp only [List.mem_singleton] at hsk
    rw [hsk]
  have hl : ∀ sk ∈ [createSketch], sk.registers.length = m := by
    intro sk hsk
    simp only [List.mem_singleton] at hsk
    rw [hsk]
    simp [createSketch]
  have hlen : createSketch.registers.length = m := by simp [createSketch]
  exact ⟨hv, hl, rollup_max_registers.1 createSketch [] hv hl,
    rollup_max_registers.2 createSketch createSketch rfl hlen hlen⟩

/-! ## Deserialization behaviour (C2) -/

theorem ProtoDeserialize_some (pb : ProtoSketch) :
    ProtoDeserialize (some pb)
      = if m < pb.registers.length then .indexOutOfRange
        else .ok { biasSet := defaultBiases, version := pb.version,
                   registers := pb.registers.map (fun r => r % 256)
                     ++ List.replicate (m - pb.registers.length) 0 } := rfl

/-- C2 (behaviour of the code at the inputs the claim is about).
`ProtoDeserialize` does reject a nil payload, but the empty payload — which
decodes to the all-default message — is accepted and yields a zero-valued
sketch with the empty version instead of an error, a register count below
`m` (here 0) is silently zero-padded to `m`, and a register count above `m`
panics with an out-of-range index instead of returning an error. -/
theorem protoDeserialize_no_length_validation :
    ProtoDeserialize none = .failure ∧
    ProtoDeserialize (some { version := "", registers := [] })
      = .ok { biasSet := defaultBiases, registers := List.replicate m 0, version := "" } ∧
    ProtoDeserialize (some { version := currentVersion, registers := List.replicate (m + 1) 0 })
      = .indexOutOfRange := by
  refine ⟨rfl, ?_, ?_⟩
  · rw [ProtoDeserialize_some]
    rw [if_neg (by simp)]
    simp only [List.map_nil, List.length_nil, Nat.sub_zero, List.nil_append]
  · rw [ProtoDeserialize_some]
    rw [if_pos (by simp)]

/-! ## Serialization round trip (C8) -/

/-- The round trip preserves the version and the registers of every
well-formed sketch, but always rebinds the default bias table; the
`Estimate` output is preserved whenever the sketch already carried the
default table (in particular for every sketch built by `NewSketch` or by
`ProtoDeserialize` itself). -/
theorem roundtrip_preserves_registers (s : SketchState) (hw : WellFormed s) :
    ∃ t, ProtoDeserialize (some (ProtoSerialize s)) = .ok t ∧
      t.version = s.version ∧ t.registers = s.registers ∧ t.biasSet = defaultBiases ∧
      (s.biasSet = defaultBiases → Estimate t = Estimate s) := by
  obtain ⟨hlen, hbyte⟩ := hw
  have hmap : (s.registers.map (fun r => r % 2 ^ 32)).map (fun r => r % 256) = s.registers := by
    rw [List.map_map]
    have : ∀ r ∈ s.registers, ((fun r => r % 256) ∘ fun r => r % 2 ^ 32) r = id r := by
      intro r hr
      have hb := hbyte r hr
      simp only [Function.comp, id]
      omega
    rw [List.map_congr_left this, List.map_id]
  have hlenmap : (s.registers.map (fun r => r % 2 ^ 32)).length = m := by
    rw [List.length_map, hlen]
  refine ⟨{ biasSet := defaultBiases, registers := s.registers, version := s.version },
    ?_, rfl, rfl, rfl, ?_⟩
  · simp only [ProtoSerialize]
    rw [ProtoDeserialize_some]
    rw [if_neg (by rw [hlenmap]; omega)]
    simp only [hlenmap, Nat.sub_self, List.replicate_zero, List.append_nil, hmap]
  · intro hdef
    have : ({ biasSet := defaultBiases, registers := s.registers, version := s.version }
        : SketchState) = s := sketch_ext _ s hdef.symm rfl rfl
    rw [this]

/-- Witness for C8's amended statement at the fresh default sketch. -/
theorem roundtrip_preserves_registers_witness :
    WellFormed createSketch ∧
      ∃ t, ProtoDeserialize (some (ProtoSerialize createSketch)) = .ok t ∧
        t.version = createSketch.version ∧ t.registers = createSketch.registers ∧
        t.biasSet = defaultBiases ∧
        (createSketch.biasSet = defaultBiases → Estimate t = Estimate createSketch) := by
  have hw : WellFormed createSketch := by
    constructor
    · simp [createSketch]
    · intro r hr
      have := List.eq_of_mem_replicate hr
      omega
  exact ⟨hw, roundtrip_preserves_registers createSketch hw⟩


theorem recipSum_replicate_zero (n : ℕ) : recipSum (List.replicate n 0) = 0 := by
  induction n with
  | zero => simp [recipSum]
  | succ k ih => simpa [List.replicate_succ, recipSum] using ih

theorem raw_fourRegisters : rawHarmonicEstimate fourRegisters = 11 := by
  rw [rawHarmonicEstimate_eq]
  have hU : usedCount fourRegisters = 1 := by
    show (if (4 : ℕ) = 0 then 0 else 1) + usedCount (List.replicate (m - 1) 0) = 1
    rw [usedCount_replicate_zero]
    norm_num
  have hS : recipSum fourRegisters = (2 : ℝ) ^ (-(4 : ℤ)) := by
    show (if (4 : ℕ) = 0 then 0 else (2 : ℝ) ^ (-((4 : ℕ) : ℤ)))
        + recipSum (List.replicate (m - 1) 0) = (2 : ℝ) ^ (-(4 : ℤ))
    rw [recipSum_replicate_zero]
    norm_num
  rw [if_neg (by omega), hU, hS]
  have hval : alpha * ((1 : ℕ) : ℝ) * ((1 : ℕ) : ℝ) / (2 : ℝ) ^ (-(4 : ℤ))
      = 8 / Real.log 2 := by
    unfold alpha
    have h16 : (2 : ℝ) ^ (-(4 : ℤ)) = 1 / 16 := by norm_num
    rw [h16]
    have hlog : Real.log 2 ≠ 0 := ne_of_gt log_two_pos
    field_simp
    ring
  rw [hval]
  have hlo := Real.log_two_gt_d9
  have hhi := Real.log_two_lt_d9
  have hpos := log_two_pos
  rw [Nat.floor_eq_iff (by positivity)]
  constructor
  · rw [le_div_iff₀ hpos]
    push_cast
    linarith
  · rw [div_lt_iff₀ hpos]
    push_cast
    linarith

theorem count_zero_fourRegisters : fourRegisters.count 0 = 16383 := by
  unfold fourRegisters
  rw [List.count_cons_of_ne (by omega), List.count_replicate_self]
  norm_num [m, precision]

theorem linearCounting_fourRegisters : linearCounting fourRegisters = 1 := by
  rw [linearCounting_eq, count_zero_fourRegisters]
  have hm : m = 16384 := by norm_num [m, precision]
  rw [hm]
  push_cast
  have hxpos : (0 : ℝ) < 16384 / 16383 := by norm_num
  have hupper : Real.log ((16384 : ℝ) / 16383) ≤ 16384 / 16383 - 1 :=
    Real.log_le_sub_one_of_pos hxpos
  have hlower : 1 - (16383 : ℝ) / 16384 ≤ Real.log ((16384 : ℝ) / 16383) := by
    have h1 := Real.log_le_sub_one_of_pos (show (0 : ℝ) < ((16384 : ℝ) / 16383)⁻¹ by positivity)
    rw [Real.log_inv] at h1
    have hinv : ((16384 : ℝ) / 16383)⁻¹ = 16383 / 16384 := by norm_num
    rw [hinv] at h1
    linarith
  have hnn : (0 : ℝ) ≤ (16384 : ℝ) * Real.log (16384 / 16383) := by
    have hl0 : (0 : ℝ) ≤ Real.log (16384 / 16383) := Real.log_nonneg (by norm_num)
    positivity
  rw [Nat.floor_eq_iff hnn]
  constructor
  · push_cast
    linarith
  · push_cast
    linarith

/-- C8 counterexample.  `customSketch` carries a registrable custom bias
table with `maxTick = 0`; its raw estimate 11 exceeds that `maxTick`, so
`Estimate` returns 11.  Serializing and deserializing it preserves version
and registers but rebinds the default bias table, under which the same
registers fall into the linear-counting branch and `Estimate` returns 1.
So the round trip does not preserve the `Estimate` output of every sketch. -/
theorem roundtrip_estimate_counterexample :
    ProtoDeserialize (some (ProtoSerialize customSketch)) = .ok roundtripOfCustom ∧
    roundtripOfCustom.version = customSketch.version ∧
    roundtripOfCustom.registers = customSketch.registers ∧
    Estimate customSketch = 11 ∧ Estimate roundtripOfCustom = 1 := by
  have hm : m = 16384 := by norm_num [m, precision]
  have hser : ProtoSerialize customSketch
      = { version := "1", registers := 4 :: List.replicate (m - 1) 0 } := by
    simp only [ProtoSerialize, customSketch, fourRegisters, List.map_cons, List.map_replicate]
    norm_num
  have hlen4 : (4 :: List.replicate (m - 1) (0 : ℕ)).length = m := by
    simp only [List.length_cons, List.length_replicate]
    omega
  have hdeser : ProtoDeserialize (some (ProtoSerialize customSketch)) = .ok roundtripOfCustom := by
    rw [hser, ProtoDeserialize_some]
    rw [if_neg (by rw [hlen4]; omega)]
    simp only [hlen4, Nat.sub_self, List.replicate_zero, List.append_nil, List.map_cons,
      List.map_replicate]
    norm_num [roundtripOfCustom, fourRegisters]
  have hraw : rawHarmonicEstimate customSketch.registers = 11 := raw_fourRegisters
  have hcustom : Estimate customSketch = 11 := by
    unfold Estimate
    rw [hraw]
    rw [if_pos (by show 11 > lowBiases.maxTick; norm_num [lowBiases])]
  have hraw2 : rawHarmonicEstimate roundtripOfCustom.registers = 11 := raw_fourRegisters
  have hrt : Estimate roundtripOfCustom = 1 := by
    unfold Estimate
    rw [hraw2]
    rw [if_neg (by show ¬ 11 > defaultBiases.maxTick; norm_num [defaultBiases, m, precision]),
      if_pos (by norm_num [maxLinearCounting])]
    exact linearCounting_fourRegisters
  exact ⟨hdeser, rfl, rfl, hcustom, hrt⟩

/-! ## Interpolation-point schedule of GenerateBiases (C7) -/

theorem interpIter_mk (rl : ℕ) (rate : ℚ) (i step nsc : ℕ) (ticks : List ℕ) :
    interpIter rl rate ⟨i, step, nsc, ticks⟩
      = if nsc < i
        then ⟨i + ⌊(step : ℚ) * rate⌋₊, ⌊(step : ℚ) * rate⌋₊, nsc + rl, ticks ++ [i]⟩
        else ⟨i + step, step, nsc, ticks ++ [i]⟩ := by
  unfold interpIter
  by_cases hb : nsc < i
  · rw [if_pos hb, if_pos hb]
  · rw [if_neg hb, if_neg hb]

theorem interpLoop_mk_succ (mc rl : ℕ) (rate : ℚ) (fuel : ℕ) (st : InterpState) :
    interpLoop mc rl rate (fuel + 1) st
      = if st.i < mc then interpLoop mc rl rate fuel (interpIter rl rate st)
        else some st.ticks := rfl

theorem floor_mul_rate_ge (step : ℕ) (rate : ℚ) (hrate : 1 ≤ rate) :
    step ≤ ⌊(step : ℚ) * rate⌋₊ := by
  apply Nat.le_floor
  calc ((step : ℚ)) = step * 1 := by ring
    _ ≤ step * rate := by
      apply mul_le_mul_of_nonneg_left hrate
      positivity

theorem interpLoop_terminates (mc rl : ℕ) (rate : ℚ) (hrate : 1 ≤ rate) :
    ∀ (fuel : ℕ) (st : InterpState), 1 ≤ st.step → mc - st.i < fuel →
      ∃ ticks, interpLoop mc rl rate fuel st = some ticks := by
  intro fuel
  induction fuel with
  | zero =>
    intro st hstep hfuel
    omega
  | succ f ih =>
    intro st hstep hfuel
    obtain ⟨i, step, nsc, ticks⟩ := st
    dsimp only at hstep hfuel
    rw [interpLoop_mk_succ]
    by_cases hlt : i < mc
    · rw [if_pos hlt, interpIter_mk]
      by_cases hb : nsc < i
      · rw [if_pos hb]
        have hge := floor_mul_rate_ge step rate hrate
        exact ih _ (by dsimp only; omega) (by dsimp only; omega)
      · rw [if_neg hb]
        exact ih _ (by dsimp only; omega) (by dsimp only; omega)
    · rw [if_neg hlt]
      exact ⟨ticks, rfl⟩

/-- C7 amended.  For every options value passing `GenerateBiases`'s
validation whose `StepRate` is moreover at least 1, the
`calculateInterpolationPoints` loop terminates (fuel `MaxCardinality + 1`
suffices, since the step then never shrinks below 1).  The claim's universal
termination over all validated options is refuted by the counterexample
below. -/
theorem interpolation_points_terminate (o : GenerationOptions)
    (hval : validGenerationOptions true o = true) (hrate : 1 ≤ o.stepRate) :
    ∃ ticks, calculateInterpolationPoints (o.maxCardinality + 1) o.maxCardinality
      o.initialStep o.stepRate = some ticks := by
  have hstep : 0 < o.initialStep := by
    unfold validGenerationOptions at hval
    simp only [Bool.and_eq_true, decide_eq_true_eq] at hval
    exact hval.1.2
  obtain ⟨ticks, hticks⟩ := interpLoop_terminates o.maxCardinality (o.maxCardinality / 10)
    o.stepRate hrate (o.maxCardinality + 1)
    ⟨0, o.initialStep.toNat, o.maxCardinality / 10, []⟩
    (by simp only; omega) (by simp only; omega)
  exact ⟨ticks.drop 1, by unfold calculateInterpolationPoints; rw [hticks]; rfl⟩

/-- Witness for C7's amended statement at the default generation options
(`MaxCardinality = 7 * m`, `InitialStep = 50`, `StepRate = 1.25`). -/
theorem interpolation_points_terminate_witness :
    validGenerationOptions true DefaultGenerationOptions = true ∧
      1 ≤ DefaultGenerationOptions.stepRate ∧
      ∃ ticks, calculateInterpolationPoints (DefaultGenerationOptions.maxCardinality + 1)
        DefaultGenerationOptions.maxCardinality DefaultGenerationOptions.initialStep
        DefaultGenerationOptions.stepRate = some ticks := by
  have hval : validGenerationOptions true DefaultGenerationOptions = true := by
    unfold validGenerationOptions DefaultGenerationOptions m precision
    norm_num
  have hrate : 1 ≤ DefaultGenerationOptions.stepRate := by
    unfold DefaultGenerationOptions
    norm_num
  exact ⟨hval, hrate, interpolation_points_terminate DefaultGenerationOptions hval hrate⟩


theorem interpLoop_bad_stuck :
    ∀ (fuel : ℕ) (st : InterpState), st.i < 16385 →
      ((st.step = 1 ∧ st.nextStepChange = 1638 ∧ st.i ≤ 1639) ∨
       (st.step = 0 ∧ st.nextStepChange = 3276 ∧ st.i = 1639)) →
      interpLoop 16385 1638 (1 / 2 : ℚ) fuel st = none := by
  intro fuel
  induction fuel with
  | zero =>
    intro st _ _
    rfl
  | succ f ih =>
    intro st hlt hinv
    obtain ⟨i, step, nsc, ticks⟩ := st
    dsimp only at hlt hinv
    rw [interpLoop_mk_succ, if_pos hlt, interpIter_mk]
    have hfl1 : ⌊((1 : ℕ) : ℚ) * (1 / 2 : ℚ)⌋₊ = 0 := by norm_num
    rcases hinv with ⟨h1, h2, h3⟩ | ⟨h1, h2, h3⟩
    · subst h1
      subst h2
      by_cases hb : 1638 < i
      · have hieq : i = 1639 := by omega
        subst hieq
        rw [if_pos hb, hfl1]
        exact ih _ (by dsimp only; omega) (Or.inr (by dsimp only; omega))
      · rw [if_neg hb]
        exact ih _ (by dsimp only; omega) (Or.inl (by dsimp only; omega))
    · subst h1
      subst h2
      rw [if_neg (by omega)]
      exact ih _ (by dsimp only; omega) (Or.inr (by dsimp only; omega))

/-- C7 counterexample.  `badOptions` passes every validation check of
`GenerateBiases`, yet with `InitialStep = 1` and `StepRate = 0.5` the step
is truncated to `uint64(1 * 0.5) = 0` right after the walk first crosses a
sub-range boundary (at `i = 1639`, boundary `16385 / 10 = 1638`), so `i`
never advances again and `calculateInterpolationPoints` — hence
`GenerateBiases` — never returns, whatever the fuel. -/
theorem interpolation_points_diverge_counterexample :
    validGenerationOptions true badOptions = true ∧
      interpolationPointsDiverge badOptions.maxCardinality badOptions.initialStep
        badOptions.stepRate := by
  constructor
  · unfold validGenerationOptions badOptions m precision
    norm_num
  · intro fuel
    unfold calculateInterpolationPoints
    have hinit : interpLoop 16385 (16385 / 10) (1 / 2 : ℚ) fuel
        ⟨0, Int.toNat 1, 16385 / 10, []⟩ = none := by
      have h10 : (16385 : ℕ) / 10 = 1638 := by norm_num
      rw [h10]
      exact interpLoop_bad_stuck fuel ⟨0, 1, 1638, []⟩ (by norm_num)
        (Or.inl (by dsimp only; omega))
    show (interpLoop badOptions.maxCardinality (badOptions.maxCardinality / 10)
        badOptions.stepRate fuel
        ⟨0, badOptions.initialStep.toNat, badOptions.maxCardinality / 10, []⟩).map
        (fun ticks => ticks.drop 1) = none
    rw [show badOptions.maxCardinality = 16385 from rfl,
      show badOptions.stepRate = (1 / 2 : ℚ) from rfl,
      show badOptions.initialStep = (1 : ℤ) from rfl, hinit]
    rfl

end HLL
